import Mathlib

/-!
Shallow embedding of the SLCSP (second lowest cost silver plan) resolver
from `src/main.py` of the scene-SLCSP repository, together with theorems
settling the specification claims.

The pandas pipeline of `find_slcsp` (main.py lines 17-59) is modelled as a
pure function over lists of records:
  * line 21/24: the rating area of each row is the string `state ++ " " ++ area`;
  * line 28:    inner merge of the zips table with the plans table on that key
                (left order preserved, matching right rows in right order);
  * line 31:    filter `metal_level == "Silver"`;
  * line 33:    projection to the columns zipcode, rate_area, rate;
  * line 40:    `drop_duplicates` on (zipcode, rate_area, rate), keeping the
                first occurrence;
  * line 41-42: per zipcode counts of distinct rate areas and distinct rates;
  * line 46-49: the undetermined group (more than one area, or a single rate),
                one row per zipcode, rate set to the NaN marker (`none` here);
  * line 52-54: the determinable group, per zipcode the two smallest rates in
                ascending order, keeping the last (the second smallest);
  * line 55:    concatenation, determinable group first.
`output_slcsp` (lines 70-73) drops the incoming rate column of the target
table and left-merges the target list with the `find_slcsp` relation on
zipcode, preserving the target order.  Rates are rationals, the NaN marker
of an undetermined rate is `none : Option ℚ`.
-/

/-- Row of the zips table (zips.csv): zipcode, state, county code, name and
numeric rate area, as loaded before line 21 of main.py. -/
structure ZipRow where
  zipcode : String
  state : String
  county_code : String
  name : String
  rate_area : Nat
deriving DecidableEq

/-- Row of the plans table (plans.csv): plan id, state, metal level, rate and
numeric rate area, as loaded before line 24 of main.py. -/
structure PlanRow where
  plan_id : String
  state : String
  metal_level : String
  rate : ℚ
  rate_area : Nat
deriving DecidableEq

/-- Combined rating-area key `state + ' ' + str(rate_area)` (main.py lines 21 and 24). -/
def areaKey (st : String) (area : Nat) : String :=
  st ++ " " ++ toString area

/-- A row of the merged frame after `pd.merge(zips_df, plans_df, on='rate_area')`
(main.py line 28): all columns of both tables, joined on the combined key. -/
structure MergedRow where
  zipcode : String
  county_code : String
  name : String
  rate_area : String
  plan_id : String
  metal_level : String
  rate : ℚ
deriving DecidableEq

/-- The inner merge of line 28: for each zips row in order, all plans rows with
the same combined rating-area key, in plans order. -/
def mergedRows (zips : List ZipRow) (plans : List PlanRow) : List MergedRow :=
  zips.flatMap fun z =>
    (plans.filter fun p => areaKey p.state p.rate_area == areaKey z.state z.rate_area).map
      fun p =>
        ⟨z.zipcode, z.county_code, z.name, areaKey z.state z.rate_area,
         p.plan_id, p.metal_level, p.rate⟩

/-- A (zipcode, rating area, rate) row of the silver-rates frame after the
column drop of line 33. -/
structure SilverRow where
  zipcode : String
  rate_area : String
  rate : ℚ
deriving DecidableEq

/-- Lines 31-33: filter the merged frame to `metal_level == 'Silver'` and keep
only the columns zipcode, rate_area and rate. -/
def silverTriples (zips : List ZipRow) (plans : List PlanRow) : List SilverRow :=
  ((mergedRows zips plans).filter fun m => m.metal_level == "Silver").map
    fun m => ⟨m.zipcode, m.rate_area, m.rate⟩

/-- `drop_duplicates` keeping the first occurrence of each element, as pandas
does by default (line 40 dedups on all three remaining columns). -/
def dedupFirst {α : Type} [DecidableEq α] : List α → List α
  | [] => []
  | x :: xs => x :: (dedupFirst xs).filter fun y => decide (y ≠ x)

/-- The deduplicated candidate relation of line 40: distinct
(zipcode, rate_area, rate) triples, first occurrences kept. -/
def candidates (zips : List ZipRow) (plans : List PlanRow) : List SilverRow :=
  dedupFirst (silverTriples zips plans)

/-- Rows of the frame `d` belonging to zipcode `z`. -/
def rowsOf (z : String) (d : List SilverRow) : List SilverRow :=
  d.filter fun r => r.zipcode == z

/-- `unique_area_count` of line 41: number of distinct rate areas among the
rows of zipcode `z`. -/
def areaCount (z : String) (d : List SilverRow) : Nat :=
  (dedupFirst ((rowsOf z d).map fun r => r.rate_area)).length

/-- `unique_rate_count` of line 42: number of distinct rates among the rows of
zipcode `z`. -/
def rateCount (z : String) (d : List SilverRow) : Nat :=
  (dedupFirst ((rowsOf z d).map fun r => r.rate)).length

/-- The row filter of line 46-47: `unique_area_count > 1 | unique_rate_count == 1`. -/
def undetCond (d : List SilverRow) (r : SilverRow) : Bool :=
  decide (1 < areaCount r.zipcode d) || decide (rateCount r.zipcode d = 1)

/-- The row filter of line 52-53: `unique_area_count == 1 & unique_rate_count > 1`. -/
def detCond (d : List SilverRow) (r : SilverRow) : Bool :=
  decide (areaCount r.zipcode d = 1) && decide (1 < rateCount r.zipcode d)

/-- Output row of `find_slcsp`: a zipcode and a rate, `none` standing for the
NaN marker of an undetermined rate. -/
structure OutRow where
  zipcode : String
  rate : Option ℚ
deriving DecidableEq

/-- Ascending stable sort of rates, the order used by `nsmallest` (line 53). -/
def sortRat (l : List ℚ) : List ℚ :=
  l.insertionSort (· ≤ ·)

/-- Ascending sort of zipcodes: `groupby` sorts its group keys (line 53). -/
def sortStr (l : List String) : List String :=
  l.insertionSort (· ≤ ·)

/-- The group keys of the determinable group of line 52-53, in sorted order as
produced by `groupby('zipcode')`. -/
def detZipsSorted (d : List SilverRow) : List String :=
  sortStr (dedupFirst ((d.filter (detCond d)).map fun r => r.zipcode))

/-- Lines 53-54 for one zipcode: the two smallest rates of its group in
ascending order (`nsmallest(2)`), keeping the last
(`drop_duplicates(subset=['zipcode'], keep='last')`). -/
def selRate (z : String) (d : List SilverRow) : Option ℚ :=
  ((sortRat ((rowsOf z (d.filter (detCond d))).map fun r => r.rate)).take 2).getLast?

/-- The determinable group as output rows (lines 52-54), one row per zipcode in
sorted zipcode order. -/
def secondLowestRows (d : List SilverRow) : List OutRow :=
  (detZipsSorted d).map fun z => ⟨z, selRate z d⟩

/-- The undetermined group (lines 46-49): one row per zipcode in order of first
appearance, rate set to the NaN marker. -/
def noLowestRows (d : List SilverRow) : List OutRow :=
  (dedupFirst ((d.filter (undetCond d)).map fun r => r.zipcode)).map
    fun z => ⟨z, (none : Option ℚ)⟩

/-- `find_slcsp` (main.py lines 6-59): the concatenation of line 55,
determinable group first. -/
def find_slcsp (zips : List ZipRow) (plans : List PlanRow) : List OutRow :=
  secondLowestRows (candidates zips plans) ++ noLowestRows (candidates zips plans)

/-- Checked variant of the determinable-group construction: selecting the
second-smallest rate of a group is reported as an error when the group has
fewer than two rates, instead of silently producing the NaN marker. -/
def collectDet (d : List SilverRow) : List String → Except String (List OutRow)
  | [] => Except.ok []
  | z :: zs =>
    match selRate z d with
    | some r => (collectDet d zs).map fun rest => ⟨z, some r⟩ :: rest
    | none => Except.error (String.append "no second lowest rate for zipcode " z)

/-- Checked variant of `find_slcsp`: identical to `find_slcsp` except that the
rank-2 selection inside the determinable group is fallible. -/
def find_slcspE (zips : List ZipRow) (plans : List PlanRow) : Except String (List OutRow) :=
  (collectDet (candidates zips plans) (detZipsSorted (candidates zips plans))).map
    fun det => det ++ noLowestRows (candidates zips plans)

/-- Row of the target table (the slcsp.csv of line 71): a zipcode and an
incoming rate column whose values are discarded by `.drop('rate', axis=1)`. -/
structure TargetRow where
  zipcode : String
  rate : Option ℚ
deriving DecidableEq

/-- One left-merge group of line 73: the rows of `res` matching zipcode `z`,
or a single NaN row when there is no match. -/
def leftMergeRow (res : List OutRow) (z : String) : List OutRow :=
  match res.filter fun r => r.zipcode == z with
  | [] => [⟨z, none⟩]
  | ms => ms

/-- `output_slcsp` (main.py lines 62-76) up to the printing of line 76: drop
the incoming rate column of the target table (line 71) and left-merge the
target list with the `find_slcsp` relation on zipcode (line 73). -/
def output_slcsp (zips : List ZipRow) (plans : List PlanRow)
    (targets : List TargetRow) : List OutRow :=
  (targets.map fun t => t.zipcode).flatMap (leftMergeRow (find_slcsp zips plans))

/-- Rate recorded for zipcode `z` in a result relation: `none` when no row of
`res` carries `z`, `some rate` for the first row that does. -/
def slcspLookup (z : String) (res : List OutRow) : Option (Option ℚ) :=
  (res.find? fun r => r.zipcode == z).map fun r => r.rate

/-- The distinct silver rates reachable from zipcode `z` in a triple relation,
first occurrences kept. -/
def distinctRatesOf (z : String) (raw : List SilverRow) : List ℚ :=
  dedupFirst ((rowsOf z raw).map fun r => r.rate)

/-- The relation the spec describes for the resolver: restrict the plans table
to its Silver subset first, then join with the zips table on the rating-area
key.  Modelled from the spec for comparison with `silverTriples`. -/
def specSilverTriples (zips : List ZipRow) (plans : List PlanRow) : List SilverRow :=
  zips.flatMap fun z =>
    ((plans.filter fun p => p.metal_level == "Silver").filter
        fun p => areaKey p.state p.rate_area == areaKey z.state z.rate_area).map
      fun p => ⟨z.zipcode, areaKey z.state z.rate_area, p.rate⟩

/-- Demo zips table: zipcode 11111 lies in rating area NY 1, zipcode 22222 in
both NY 1 and NY 2, zipcode 33333 in CA 5. -/
def demoZips : List ZipRow :=
  [⟨"11111", "NY", "36001", "Albany", 1⟩,
   ⟨"22222", "NY", "36002", "Broome", 1⟩,
   ⟨"22222", "NY", "36003", "Cayuga", 2⟩,
   ⟨"33333", "CA", "06001", "Alameda", 5⟩]

/-- Demo plans table: NY 1 has silver rates 200.00, 150.00 and a duplicate
150.00; NY 2 has silver rates 100.00 and 120.00; CA 5 has the single silver
rate 180.00; one Gold plan is present to be filtered out. -/
def demoPlans : List PlanRow :=
  [⟨"P1", "NY", "Silver", 200, 1⟩,
   ⟨"P2", "NY", "Silver", 150, 1⟩,
   ⟨"P3", "NY", "Silver", 150, 1⟩,
   ⟨"P4", "NY", "Silver", 100, 2⟩,
   ⟨"P5", "NY", "Silver", 120, 2⟩,
   ⟨"P6", "CA", "Silver", 180, 5⟩,
   ⟨"P7", "NY", "Gold", 90, 1⟩]

/-- Demo target table: the four known zipcodes plus 44444, absent from the
zips table; the incoming rate values are arbitrary. -/
def demoTargets : List TargetRow :=
  [⟨"11111", none⟩, ⟨"22222", some 1⟩, ⟨"33333", none⟩, ⟨"44444", some 7⟩]

/-! ### Generic list lemmas -/

theorem mem_dedupFirst {α : Type} [DecidableEq α] {a : α} :
    ∀ {l : List α}, a ∈ dedupFirst l ↔ a ∈ l
  | [] => Iff.rfl
  | x :: xs => by
    by_cases h : a = x
    · simp [dedupFirst, h]
    · simp [dedupFirst, List.mem_filter, h, mem_dedupFirst (l := xs)]

theorem nodup_dedupFirst {α : Type} [DecidableEq α] : ∀ (l : List α), (dedupFirst l).Nodup
  | [] => List.nodup_nil
  | x :: xs => by
    refine List.nodup_cons.mpr ⟨?_, (nodup_dedupFirst xs).filter _⟩
    intro hx
    have := (List.mem_filter.mp hx).2
    simp at this

theorem dedupFirst_sub_length {α : Type} [DecidableEq α] :
    ∀ (l : List α), (dedupFirst l).length ≤ l.length
  | [] => Nat.le_refl _
  | x :: xs => by
    have h1 : ((dedupFirst xs).filter fun y => decide (y ≠ x)).length ≤ (dedupFirst xs).length :=
      List.length_filter_le _ _
    have h2 := dedupFirst_sub_length xs
    simpa [dedupFirst] using Nat.le_trans h1 h2

theorem dedupFirst_perm_of_mem_iff {α : Type} [DecidableEq α] {l1 l2 : List α}
    (h : ∀ a, a ∈ l1 ↔ a ∈ l2) : (dedupFirst l1).Perm (dedupFirst l2) :=
  (List.perm_ext_iff_of_nodup (nodup_dedupFirst l1) (nodup_dedupFirst l2)).mpr
    fun a => by rw [mem_dedupFirst, mem_dedupFirst]; exact h a

theorem dedupFirst_len_of_mem_iff {α : Type} [DecidableEq α] {l1 l2 : List α}
    (h : ∀ a, a ∈ l1 ↔ a ∈ l2) : (dedupFirst l1).length = (dedupFirst l2).length :=
  (dedupFirst_perm_of_mem_iff h).length_eq

theorem dedupFirst_eq_of_nodup {α : Type} [DecidableEq α] :
    ∀ {l : List α}, l.Nodup → dedupFirst l = l
  | [], _ => rfl
  | x :: xs, h => by
    have hx := List.nodup_cons.mp h
    have hrec : dedupFirst xs = xs := dedupFirst_eq_of_nodup hx.2
    show x :: (dedupFirst xs).filter (fun y => decide (y ≠ x)) = x :: xs
    rw [hrec]
    congr 1
    refine List.filter_eq_self.mpr fun a ha => ?_
    simp only [decide_eq_true_eq]
    exact fun hax => hx.1 (hax ▸ ha)

theorem all_eq_of_dedupFirst_len_one {α : Type} [DecidableEq α] {l : List α}
    (h : (dedupFirst l).length = 1) : ∀ a ∈ l, ∀ b ∈ l, a = b := by
  intro a ha b hb
  obtain ⟨c, hc⟩ := List.length_eq_one.mp h
  have ha2 : a ∈ dedupFirst l := mem_dedupFirst.mpr ha
  have hb2 : b ∈ dedupFirst l := mem_dedupFirst.mpr hb
  rw [hc, List.mem_singleton] at ha2 hb2
  rw [ha2, hb2]

theorem find?_eq_head_filter {α : Type} (p : α → Bool) :
    ∀ (l : List α), l.find? p = (l.filter p).head?
  | [] => rfl
  | x :: xs => by
    by_cases h : p x = true
    · rw [List.find?_cons_of_pos _ h, List.filter_cons_of_pos h]; rfl
    · rw [List.find?_cons_of_neg _ (by simp [h]), List.filter_cons_of_neg (by simp [h]),
        find?_eq_head_filter p xs]

theorem flatMap_singleton_eq_map {α β : Type} (f : α → β) :
    ∀ (l : List α), (l.flatMap fun x => [f x]) = l.map f
  | [] => rfl
  | x :: xs => by
    simp only [List.flatMap, List.map] at *
    simpa using flatMap_singleton_eq_map f xs

theorem take_two_getLast {α : Type} :
    ∀ {l : List α}, 2 ≤ l.length → (l.take 2).getLast? = l[1]?
  | [], h => by simp at h
  | [a], h => by simp at h
  | a :: b :: t, _ => by simp [List.take]

/-! ### Membership in the candidate relation -/

theorem mem_rowsOf {z : String} {d : List SilverRow} {r : SilverRow} :
    r ∈ rowsOf z d ↔ r ∈ d ∧ r.zipcode = z := by
  simp [rowsOf, List.mem_filter]

theorem mem_candidates {zips : List ZipRow} {plans : List PlanRow} {t : SilverRow} :
    t ∈ candidates zips plans ↔ t ∈ silverTriples zips plans :=
  mem_dedupFirst

theorem mem_silverTriples {zips : List ZipRow} {plans : List PlanRow} {t : SilverRow} :
    t ∈ silverTriples zips plans ↔
      ∃ z ∈ zips, ∃ p ∈ plans,
        areaKey p.state p.rate_area = areaKey z.state z.rate_area ∧
        p.metal_level = "Silver" ∧
        t = ⟨z.zipcode, areaKey z.state z.rate_area, p.rate⟩ := by
  constructor
  · intro h
    obtain ⟨m, hm, hmt⟩ := List.mem_map.mp h
    obtain ⟨hm2, hsil⟩ := List.mem_filter.mp hm
    obtain ⟨z, hz, hmz⟩ := List.mem_flatMap.mp hm2
    obtain ⟨p, hp, hpm⟩ := List.mem_map.mp hmz
    obtain ⟨hp2, hkey⟩ := List.mem_filter.mp hp
    refine ⟨z, hz, p, hp2, by simpa using hkey, ?_, ?_⟩
    · have : m.metal_level = p.metal_level := by rw [← hpm]
      rw [← this]
      simpa using hsil
    · rw [← hmt, ← hpm]
  · rintro ⟨z, hz, p, hp, hkey, hsil, rfl⟩
    refine List.mem_map.mpr ⟨⟨z.zipcode, z.county_code, z.name, areaKey z.state z.rate_area,
      p.plan_id, p.metal_level, p.rate⟩, List.mem_filter.mpr ⟨?_, by simpa using hsil⟩, by rfl⟩
    refine List.mem_flatMap.mpr ⟨z, hz, List.mem_map.mpr ⟨p, List.mem_filter.mpr ⟨hp, ?_⟩, rfl⟩⟩
    simpa using hkey

/-! ### Counts and the classification conditions -/

theorem rowsOf_mem_iff {d1 d2 : List SilverRow} (h : ∀ t, t ∈ d1 ↔ t ∈ d2)
    (z : String) (r : SilverRow) : r ∈ rowsOf z d1 ↔ r ∈ rowsOf z d2 := by
  rw [mem_rowsOf, mem_rowsOf, h r]

theorem areaCount_eq_of_mem_iff {d1 d2 : List SilverRow}
    (h : ∀ t, t ∈ d1 ↔ t ∈ d2) (z : String) : areaCount z d1 = areaCount z d2 := by
  refine dedupFirst_len_of_mem_iff fun a => ?_
  simp only [List.mem_map]
  constructor
  · rintro ⟨r, hr, rfl⟩; exact ⟨r, (rowsOf_mem_iff h z r).mp hr, rfl⟩
  · rintro ⟨r, hr, rfl⟩; exact ⟨r, (rowsOf_mem_iff h z r).mpr hr, rfl⟩

theorem rateCount_eq_of_mem_iff {d1 d2 : List SilverRow}
    (h : ∀ t, t ∈ d1 ↔ t ∈ d2) (z : String) : rateCount z d1 = rateCount z d2 := by
  refine dedupFirst_len_of_mem_iff fun a => ?_
  simp only [List.mem_map]
  constructor
  · rintro ⟨r, hr, rfl⟩; exact ⟨r, (rowsOf_mem_iff h z r).mp hr, rfl⟩
  · rintro ⟨r, hr, rfl⟩; exact ⟨r, (rowsOf_mem_iff h z r).mpr hr, rfl⟩

theorem detCond_iff {d : List SilverRow} {r : SilverRow} :
    detCond d r = true ↔ (areaCount r.zipcode d = 1 ∧ 1 < rateCount r.zipcode d) := by
  simp [detCond]

theorem undetCond_iff {d : List SilverRow} {r : SilverRow} :
    undetCond d r = true ↔ (1 < areaCount r.zipcode d ∨ rateCount r.zipcode d = 1) := by
  simp [undetCond]

theorem areaCount_pos {z : String} {d : List SilverRow} (h : ∃ r ∈ d, r.zipcode = z) :
    1 ≤ areaCount z d := by
  obtain ⟨r, hr, hz⟩ := h
  have h1 : r.rate_area ∈ (rowsOf z d).map fun s => s.rate_area :=
    List.mem_map_of_mem _ (mem_rowsOf.mpr ⟨hr, hz⟩)
  exact List.length_pos.mpr (List.ne_nil_of_mem (mem_dedupFirst.mpr h1))

theorem rateCount_pos {z : String} {d : List SilverRow} (h : ∃ r ∈ d, r.zipcode = z) :
    1 ≤ rateCount z d := by
  obtain ⟨r, hr, hz⟩ := h
  have h1 : r.rate ∈ (rowsOf z d).map fun s => s.rate :=
    List.mem_map_of_mem _ (mem_rowsOf.mpr ⟨hr, hz⟩)
  exact List.length_pos.mpr (List.ne_nil_of_mem (mem_dedupFirst.mpr h1))

/-! ### Membership in the two groups -/

theorem mem_detZipsSorted {d : List SilverRow} {z : String} :
    z ∈ detZipsSorted d ↔
      (∃ r ∈ d, r.zipcode = z) ∧ areaCount z d = 1 ∧ 1 < rateCount z d := by
  unfold detZipsSorted sortStr
  rw [(List.perm_insertionSort _ _).mem_iff, mem_dedupFirst]
  simp only [List.mem_map, List.mem_filter]
  constructor
  · rintro ⟨r, ⟨hrd, hcond⟩, rfl⟩
    rw [detCond_iff] at hcond
    exact ⟨⟨r, hrd, rfl⟩, hcond⟩
  · rintro ⟨⟨r, hrd, heq⟩, hc⟩
    refine ⟨r, ⟨hrd, ?_⟩, heq⟩
    rw [detCond_iff, heq]
    exact hc

theorem mem_noLowestKeys {d : List SilverRow} {z : String} :
    z ∈ dedupFirst ((d.filter (undetCond d)).map fun r => r.zipcode) ↔
      (∃ r ∈ d, r.zipcode = z) ∧ (1 < areaCount z d ∨ rateCount z d = 1) := by
  rw [mem_dedupFirst]
  simp only [List.mem_map, List.mem_filter]
  constructor
  · rintro ⟨r, ⟨hrd, hcond⟩, rfl⟩
    rw [undetCond_iff] at hcond
    exact ⟨⟨r, hrd, rfl⟩, hcond⟩
  · rintro ⟨⟨r, hrd, heq⟩, hc⟩
    refine ⟨r, ⟨hrd, ?_⟩, heq⟩
    rw [undetCond_iff, heq]
    exact hc

/-! ### Locating a zipcode in the result relation -/

theorem find?_map_mk_of_mem (g : String → Option ℚ) :
    ∀ {ks : List String} {z : String}, z ∈ ks →
      ((ks.map fun k => OutRow.mk k (g k)).find? fun r => r.zipcode == z) = some ⟨z, g z⟩
  | [], z, h => absurd h (List.not_mem_nil z)
  | k :: ks, z, h => by
    by_cases hk : k = z
    · subst hk
      rw [List.map_cons, List.find?_cons_of_pos]
      simp
    · rw [List.map_cons, List.find?_cons_of_neg _ (by simpa using hk)]
      have h2 : z ∈ ks := by
        rcases List.mem_cons.mp h with h3 | h3
        · exact absurd h3.symm hk
        · exact h3
      exact find?_map_mk_of_mem g h2

theorem find?_map_mk_of_not_mem (g : String → Option ℚ) {ks : List String} {z : String}
    (h : z ∉ ks) :
    ((ks.map fun k => OutRow.mk k (g k)).find? fun r => r.zipcode == z) = none := by
  refine List.find?_eq_none.mpr fun row hrow => ?_
  obtain ⟨k, hk, rfl⟩ := List.mem_map.mp hrow
  simp only [beq_iff_eq]
  exact fun hkz => h (hkz ▸ hk)

/-! ### The determinable group keeps exactly the rows of its zipcodes -/

theorem rowsOf_filter_detCond {z : String} {d : List SilverRow}
    (h1 : areaCount z d = 1) (h2 : 1 < rateCount z d) :
    rowsOf z (d.filter (detCond d)) = rowsOf z d := by
  show (d.filter (detCond d)).filter (fun r => r.zipcode == z)
      = d.filter fun r => r.zipcode == z
  rw [List.filter_filter]
  refine List.filter_congr fun r hr => ?_
  by_cases hz : r.zipcode = z
  · have hc : detCond d r = true := detCond_iff.mpr (by rw [hz]; exact ⟨h1, h2⟩)
    simp [hz, hc]
  · simp [hz]

theorem ratesOf_nodup {z : String} {d : List SilverRow} (hd : d.Nodup)
    (h1 : areaCount z d = 1) :
    ((rowsOf z d).map fun r => r.rate).Nodup := by
  have hrows : (rowsOf z d).Nodup := hd.filter _
  refine List.Nodup.map_on ?_ hrows
  intro r hr s hs hrs
  have hzr := (mem_rowsOf.mp hr).2
  have hzs := (mem_rowsOf.mp hs).2
  have hareas := all_eq_of_dedupFirst_len_one h1 r.rate_area
    (List.mem_map_of_mem _ hr) s.rate_area (List.mem_map_of_mem _ hs)
  cases r
  cases s
  simp_all

/-! ### The selected rate of a determinable zipcode -/

theorem selRate_eq {zips : List ZipRow} {plans : List PlanRow} {z : String}
    (h1 : areaCount z (candidates zips plans) = 1)
    (h2 : 1 < rateCount z (candidates zips plans)) :
    selRate z (candidates zips plans)
        = (sortRat (distinctRatesOf z (silverTriples zips plans)))[1]?
    ∧ 2 ≤ (sortRat (distinctRatesOf z (silverTriples zips plans))).length := by
  have hnodup : ((rowsOf z (candidates zips plans)).map fun r => r.rate).Nodup :=
    ratesOf_nodup (nodup_dedupFirst _) h1
  have hmemiff : ∀ q : ℚ, q ∈ (rowsOf z (candidates zips plans)).map (fun r => r.rate) ↔
      q ∈ distinctRatesOf z (silverTriples zips plans) := by
    intro q
    unfold distinctRatesOf
    rw [mem_dedupFirst]
    simp only [List.mem_map]
    constructor
    · rintro ⟨r, hr, rfl⟩
      exact ⟨r, (rowsOf_mem_iff (fun t => mem_candidates) z r).mp hr, rfl⟩
    · rintro ⟨r, hr, rfl⟩
      exact ⟨r, (rowsOf_mem_iff (fun t => mem_candidates) z r).mpr hr, rfl⟩
  have hperm : ((rowsOf z (candidates zips plans)).map fun r => r.rate).Perm
      (distinctRatesOf z (silverTriples zips plans)) :=
    (List.perm_ext_iff_of_nodup hnodup (nodup_dedupFirst _)).mpr hmemiff
  have hsort : sortRat ((rowsOf z (candidates zips plans)).map fun r => r.rate)
      = sortRat (distinctRatesOf z (silverTriples zips plans)) := by
    refine List.eq_of_perm_of_sorted ?_ (List.sorted_insertionSort _ _)
      (List.sorted_insertionSort _ _)
    exact ((List.perm_insertionSort _ _).trans hperm).trans
      (List.perm_insertionSort _ _).symm
  have hlen : 2 ≤ (sortRat (distinctRatesOf z (silverTriples zips plans))).length := by
    have e1 : rateCount z (candidates zips plans)
        = ((rowsOf z (candidates zips plans)).map fun r => r.rate).length := by
      unfold rateCount
      rw [dedupFirst_eq_of_nodup hnodup]
    have e2 := (List.perm_insertionSort (fun a b : ℚ => a ≤ b)
      (distinctRatesOf z (silverTriples zips plans))).length_eq
    have e3 := hperm.length_eq
    unfold sortRat
    omega
  refine ⟨?_, hlen⟩
  unfold selRate
  rw [rowsOf_filter_detCond h1 h2, hsort, take_two_getLast hlen]

/-! ### Case analysis of the lookup in the `find_slcsp` relation -/

theorem slcspLookup_det {zips : List ZipRow} {plans : List PlanRow} {z : String}
    (h3 : ∃ r ∈ candidates zips plans, r.zipcode = z)
    (h1 : areaCount z (candidates zips plans) = 1)
    (h2 : 1 < rateCount z (candidates zips plans)) :
    slcspLookup z (find_slcsp zips plans) = some (selRate z (candidates zips plans)) := by
  unfold slcspLookup find_slcsp secondLowestRows noLowestRows
  rw [List.find?_append,
    find?_map_mk_of_mem (fun k => selRate k (candidates zips plans))
      (mem_detZipsSorted.mpr ⟨h3, h1, h2⟩)]
  rfl

theorem slcspLookup_undet {zips : List ZipRow} {plans : List PlanRow} {z : String}
    (h3 : ∃ r ∈ candidates zips plans, r.zipcode = z)
    (h : ¬(areaCount z (candidates zips plans) = 1
           ∧ 1 < rateCount z (candidates zips plans))) :
    slcspLookup z (find_slcsp zips plans) = some none := by
  have ha := areaCount_pos h3
  have hr := rateCount_pos h3
  have hcond : 1 < areaCount z (candidates zips plans)
      ∨ rateCount z (candidates zips plans) = 1 := by omega
  have hnotdet : z ∉ detZipsSorted (candidates zips plans) :=
    fun hmem => h (mem_detZipsSorted.mp hmem).2
  unfold slcspLookup find_slcsp secondLowestRows noLowestRows
  rw [List.find?_append, find?_map_mk_of_not_mem _ hnotdet, Option.none_or,
    find?_map_mk_of_mem (fun _ => (none : Option ℚ))
      (mem_noLowestKeys.mpr ⟨h3, hcond⟩)]
  rfl

theorem slcspLookup_missing {zips : List ZipRow} {plans : List PlanRow} {z : String}
    (h : ¬∃ r ∈ candidates zips plans, r.zipcode = z) :
    slcspLookup z (find_slcsp zips plans) = none := by
  have h1 : z ∉ detZipsSorted (candidates zips plans) :=
    fun hm => h (mem_detZipsSorted.mp hm).1
  have h2 : z ∉ dedupFirst
      (((candidates zips plans).filter (undetCond (candidates zips plans))).map
        fun r => r.zipcode) :=
    fun hm => h (mem_noLowestKeys.mp hm).1
  unfold slcspLookup find_slcsp secondLowestRows noLowestRows
  rw [List.find?_append, find?_map_mk_of_not_mem (fun k => selRate k (candidates zips plans)) h1,
    Option.none_or, find?_map_mk_of_not_mem (fun _ => (none : Option ℚ)) h2]
  rfl

/-! ### The lookup depends only on the set of silver triples -/

theorem slcspLookup_eq_of_mem_iff {zips1 zips2 : List ZipRow} {plans1 plans2 : List PlanRow}
    (h : ∀ t, t ∈ silverTriples zips1 plans1 ↔ t ∈ silverTriples zips2 plans2) (z : String) :
    slcspLookup z (find_slcsp zips1 plans1) = slcspLookup z (find_slcsp zips2 plans2) := by
  have hc : ∀ t, t ∈ candidates zips1 plans1 ↔ t ∈ candidates zips2 plans2 := by
    intro t
    rw [mem_candidates, mem_candidates]
    exact h t
  have hpres : (∃ r ∈ candidates zips1 plans1, r.zipcode = z) ↔
      (∃ r ∈ candidates zips2 plans2, r.zipcode = z) := by
    constructor
    · rintro ⟨r, hr, hz⟩; exact ⟨r, (hc r).mp hr, hz⟩
    · rintro ⟨r, hr, hz⟩; exact ⟨r, (hc r).mpr hr, hz⟩
  have hac := areaCount_eq_of_mem_iff hc z
  have hrc := rateCount_eq_of_mem_iff hc z
  by_cases hex : ∃ r ∈ candidates zips1 plans1, r.zipcode = z
  · by_cases hdet : areaCount z (candidates zips1 plans1) = 1
        ∧ 1 < rateCount z (candidates zips1 plans1)
    · have hsd : sortRat (distinctRatesOf z (silverTriples zips1 plans1))
          = sortRat (distinctRatesOf z (silverTriples zips2 plans2)) := by
        refine List.eq_of_perm_of_sorted ?_ (List.sorted_insertionSort _ _)
          (List.sorted_insertionSort _ _)
        refine ((List.perm_insertionSort _ _).trans ?_).trans
          (List.perm_insertionSort _ _).symm
        refine (List.perm_ext_iff_of_nodup (nodup_dedupFirst _) (nodup_dedupFirst _)).mpr ?_
        intro q
        rw [mem_dedupFirst, mem_dedupFirst]
        simp only [List.mem_map]
        constructor
        · rintro ⟨r, hr, rfl⟩; exact ⟨r, (rowsOf_mem_iff h z r).mp hr, rfl⟩
        · rintro ⟨r, hr, rfl⟩; exact ⟨r, (rowsOf_mem_iff h z r).mpr hr, rfl⟩
      have hdet2 : areaCount z (candidates zips2 plans2) = 1
          ∧ 1 < rateCount z (candidates zips2 plans2) := by
        constructor
        · rw [← hac]; exact hdet.1
        · rw [← hrc]; exact hdet.2
      rw [slcspLookup_det hex hdet.1 hdet.2, slcspLookup_det (hpres.mp hex) hdet2.1 hdet2.2,
        (selRate_eq hdet.1 hdet.2).1, (selRate_eq hdet2.1 hdet2.2).1, hsd]
    · have hdet2 : ¬(areaCount z (candidates zips2 plans2) = 1
          ∧ 1 < rateCount z (candidates zips2 plans2)) := by
        rw [← hac, ← hrc]
        exact hdet
      rw [slcspLookup_undet hex hdet, slcspLookup_undet (hpres.mp hex) hdet2]
  · rw [slcspLookup_missing hex, slcspLookup_missing fun hx => hex (hpres.mpr hx)]

/-! ### Uniqueness of zipcodes in the result relation -/

theorem find_slcsp_keys (zips : List ZipRow) (plans : List PlanRow) :
    (find_slcsp zips plans).map (fun r => r.zipcode)
      = detZipsSorted (candidates zips plans)
        ++ dedupFirst (((candidates zips plans).filter
            (undetCond (candidates zips plans))).map fun r => r.zipcode) := by
  unfold find_slcsp secondLowestRows noLowestRows
  simp [List.map_map, Function.comp_def]

theorem nodup_find_slcsp_keys (zips : List ZipRow) (plans : List PlanRow) :
    ((find_slcsp zips plans).map fun r => r.zipcode).Nodup := by
  rw [find_slcsp_keys]
  refine List.Nodup.append ?_ (nodup_dedupFirst _) ?_
  · exact ((List.perm_insertionSort _ _).nodup_iff).mpr (nodup_dedupFirst _)
  · intro z hz1 hz2
    obtain ⟨_, h1, h2⟩ := mem_detZipsSorted.mp hz1
    obtain ⟨_, hcond⟩ := mem_noLowestKeys.mp hz2
    omega

/-! ### The left merge of the target list -/

theorem filter_key_len_le {res : List OutRow}
    (h : (res.map fun r => r.zipcode).Nodup) (z : String) :
    (res.filter fun r => r.zipcode == z).length ≤ 1 := by
  induction res with
  | nil => simp
  | cons r rs ih =>
    rw [List.map_cons, List.nodup_cons] at h
    by_cases hz : r.zipcode = z
    · rw [List.filter_cons_of_pos (by simpa using hz)]
      have hnil : rs.filter (fun s => s.zipcode == z) = [] := by
        refine List.filter_eq_nil_iff.mpr fun s hs => ?_
        simp only [beq_iff_eq]
        intro hsz
        exact h.1 (by rw [← hz, ← hsz] at *; exact List.mem_map_of_mem _ hs)
      rw [hnil]
      simp
    · rw [List.filter_cons_of_neg (by simpa using hz)]
      exact ih h.2

theorem leftMergeRow_eq {res : List OutRow}
    (h : (res.map fun r => r.zipcode).Nodup) (z : String) :
    leftMergeRow res z = [⟨z, (slcspLookup z res).bind id⟩] := by
  have hlen := filter_key_len_le h z
  unfold leftMergeRow slcspLookup
  rw [find?_eq_head_filter]
  cases hfil : res.filter fun r => r.zipcode == z with
  | nil => rfl
  | cons r rest =>
    rw [hfil] at hlen
    have hr : r ∈ res.filter fun s => s.zipcode == z := by
      rw [hfil]
      exact List.mem_cons_self r rest
    have hz : r.zipcode = z := by simpa using (List.mem_filter.mp hr).2
    have hrest : rest = [] := by
      cases rest with
      | nil => rfl
      | cons a t => simp at hlen
    subst hrest
    cases r with
    | mk zc rt => simp_all

theorem output_slcsp_eq_map (zips : List ZipRow) (plans : List PlanRow)
    (targets : List TargetRow) :
    output_slcsp zips plans targets
      = targets.map fun t =>
          ⟨t.zipcode, (slcspLookup t.zipcode (find_slcsp zips plans)).bind id⟩ := by
  unfold output_slcsp
  induction targets with
  | nil => rfl
  | cons t ts ih =>
    simp only [List.map_cons, List.flatMap_cons]
    rw [leftMergeRow_eq (nodup_find_slcsp_keys zips plans), ih]
    rfl

/-! ### The checked variant never fails -/

theorem selRate_isSome_of_det {zips : List ZipRow} {plans : List PlanRow} {z : String}
    (h1 : areaCount z (candidates zips plans) = 1)
    (h2 : 1 < rateCount z (candidates zips plans)) :
    (selRate z (candidates zips plans)).isSome = true := by
  obtain ⟨heq, hlen⟩ := selRate_eq h1 h2
  rw [heq, List.getElem?_eq_getElem (by omega)]
  rfl

theorem collectDet_ok {d : List SilverRow} :
    ∀ {ks : List String}, (∀ z ∈ ks, (selRate z d).isSome = true) →
      collectDet d ks = Except.ok (ks.map fun z => ⟨z, selRate z d⟩)
  | [], _ => rfl
  | k :: ks, h => by
    obtain ⟨r, hr⟩ := Option.isSome_iff_exists.mp (h k (List.mem_cons_self k ks))
    have ih := @collectDet_ok d ks fun z hz => h z (List.mem_cons_of_mem _ hz)
    unfold collectDet
    rw [List.map_cons, hr, ih]
    rfl

/-! ### Join-then-filter equals filter-then-join -/

theorem silverTriples_eq_spec (zips : List ZipRow) (plans : List PlanRow) :
    silverTriples zips plans = specSilverTriples zips plans := by
  unfold silverTriples mergedRows specSilverTriples
  rw [List.filter_flatMap, List.map_flatMap]
  refine congrArg zips.flatMap (funext fun z => ?_)
  induction plans with
  | nil => rfl
  | cons p ps ih =>
    by_cases hk : (areaKey p.state p.rate_area == areaKey z.state z.rate_area) = true
    · by_cases hs : (p.metal_level == "Silver") = true
      · simp only [List.filter_cons, hk, hs, if_true, List.map_cons, Bool.false_eq_true,
          if_false, ih]
      · simp only [List.filter_cons, hk, hs, if_true, List.map_cons, Bool.false_eq_true,
          if_false, ih]
    · by_cases hs : (p.metal_level == "Silver") = true
      · simp only [List.filter_cons, hk, hs, if_true, List.map_cons, Bool.false_eq_true,
          if_false, ih]
      · simp only [List.filter_cons, hk, hs, if_true, List.map_cons, Bool.false_eq_true,
          if_false, ih]

theorem exists_row_of_rateCount_pos {z : String} {d : List SilverRow}
    (h : 1 ≤ rateCount z d) : ∃ r ∈ d, r.zipcode = z := by
  by_contra hno
  push_neg at hno
  have hnil : rowsOf z d = [] := by
    refine List.filter_eq_nil_iff.mpr fun r hr => ?_
    simp only [beq_iff_eq]
    exact hno r hr
  unfold rateCount at h
  rw [hnil] at h
  simp [dedupFirst] at h

/-! ### Claims -/

/-- Claim C1: for every zipcode that appears in the deduplicated candidate
relation, the computed output rate is defined if and only if the zipcode's
candidates fall in exactly one distinct rating area and carry at least two
distinct silver rates; otherwise the zipcode's output row carries the
undefined marker. -/
theorem claim1_defined_iff (zips : List ZipRow) (plans : List PlanRow) (z : String)
    (hz : ∃ r ∈ candidates zips plans, r.zipcode = z) :
    ((∃ q : ℚ, slcspLookup z (find_slcsp zips plans) = some (some q)) ↔
      (areaCount z (candidates zips plans) = 1
        ∧ 2 ≤ rateCount z (candidates zips plans)))
    ∧ (¬(areaCount z (candidates zips plans) = 1
        ∧ 2 ≤ rateCount z (candidates zips plans)) →
      slcspLookup z (find_slcsp zips plans) = some none) := by
  by_cases hdet : areaCount z (candidates zips plans) = 1
      ∧ 1 < rateCount z (candidates zips plans)
  · have hl := slcspLookup_det hz hdet.1 hdet.2
    obtain ⟨q, hq⟩ := Option.isSome_iff_exists.mp (selRate_isSome_of_det hdet.1 hdet.2)
    exact ⟨iff_of_true ⟨q, by rw [hl, hq]⟩ ⟨hdet.1, hdet.2⟩,
      fun hnot => absurd ⟨hdet.1, hdet.2⟩ hnot⟩
  · have hl := slcspLookup_undet hz hdet
    refine ⟨iff_of_false ?_ ?_, fun _ => hl⟩
    · rintro ⟨q, hq⟩
      rw [hl] at hq
      simp at hq
    · exact fun hd => hdet ⟨hd.1, hd.2⟩

/-- Witness for C1 at a concrete input: zipcode 11111 of the demo tables is in
the candidate relation, and its rate is defined. -/
theorem claim1_witness :
    (∃ q : ℚ, slcspLookup "11111" (find_slcsp demoZips demoPlans) = some (some q)) ↔
      (areaCount "11111" (candidates demoZips demoPlans) = 1
        ∧ 2 ≤ rateCount "11111" (candidates demoZips demoPlans)) :=
  (claim1_defined_iff demoZips demoPlans "11111" (by decide)).1

/-- Claim C2: for a zipcode in exactly one rating area with at least two
distinct silver rates, the selected rate is the second smallest of its set of
distinct silver rates, and the selected value is unchanged by permuting the
input tables and by appending plan rows that duplicate an already-present
(rating area, rate) pair. -/
theorem claim2_second_smallest (zips : List ZipRow) (plans : List PlanRow) (z : String)
    (h1 : areaCount z (candidates zips plans) = 1)
    (h2 : 2 ≤ rateCount z (candidates zips plans)) :
    slcspLookup z (find_slcsp zips plans)
        = some ((sortRat (distinctRatesOf z (silverTriples zips plans)))[1]?)
    ∧ ((sortRat (distinctRatesOf z (silverTriples zips plans)))[1]?).isSome = true
    ∧ (∀ zips2 plans2, zips.Perm zips2 → plans.Perm plans2 →
        slcspLookup z (find_slcsp zips2 plans2) = slcspLookup z (find_slcsp zips plans))
    ∧ ∀ extra : List PlanRow,
        (∀ e ∈ extra, e.metal_level = "Silver" →
          ∃ q ∈ plans, q.metal_level = "Silver"
            ∧ areaKey q.state q.rate_area = areaKey e.state e.rate_area
            ∧ q.rate = e.rate) →
        slcspLookup z (find_slcsp zips (plans ++ extra))
          = slcspLookup z (find_slcsp zips plans) := by
  have hz : ∃ r ∈ candidates zips plans, r.zipcode = z :=
    @exists_row_of_rateCount_pos z (candidates zips plans) (by omega)
  refine ⟨?_, ?_, ?_, ?_⟩
  · rw [slcspLookup_det hz h1 h2, (selRate_eq h1 h2).1]
  · rw [List.getElem?_eq_getElem (by have := (selRate_eq h1 h2).2; omega)]
    rfl
  · intro zips2 plans2 hpz hpp
    have hmem : ∀ t, t ∈ silverTriples zips2 plans2 ↔ t ∈ silverTriples zips plans := by
      intro t
      rw [mem_silverTriples, mem_silverTriples]
      constructor
      · rintro ⟨zr, hzr, p, hp, hkey, hsil, rfl⟩
        exact ⟨zr, hpz.mem_iff.mpr hzr, p, hpp.mem_iff.mpr hp, hkey, hsil, rfl⟩
      · rintro ⟨zr, hzr, p, hp, hkey, hsil, rfl⟩
        exact ⟨zr, hpz.mem_iff.mp hzr, p, hpp.mem_iff.mp hp, hkey, hsil, rfl⟩
    exact slcspLookup_eq_of_mem_iff hmem z
  · intro extra hextra
    have hmem : ∀ t, t ∈ silverTriples zips (plans ++ extra)
        ↔ t ∈ silverTriples zips plans := by
      intro t
      rw [mem_silverTriples, mem_silverTriples]
      constructor
      · rintro ⟨zr, hzr, p, hp, hkey, hsil, rfl⟩
        rcases List.mem_append.mp hp with hp1 | hp2
        · exact ⟨zr, hzr, p, hp1, hkey, hsil, rfl⟩
        · obtain ⟨q, hq, hqs, hqk, hqr⟩ := hextra p hp2 hsil
          refine ⟨zr, hzr, q, hq, ?_, hqs, ?_⟩
          · rw [hqk]
            exact hkey
          · rw [hqr]
      · rintro ⟨zr, hzr, p, hp, hkey, hsil, rfl⟩
        exact ⟨zr, hzr, p, List.mem_append_left _ hp, hkey, hsil, rfl⟩
    exact slcspLookup_eq_of_mem_iff hmem z

/-- Witness for C2 at a concrete input: the selected rate of zipcode 11111 of
the demo tables is the second smallest distinct silver rate, 200. -/
theorem claim2_witness :
    slcspLookup "11111" (find_slcsp demoZips demoPlans)
        = some ((sortRat (distinctRatesOf "11111" (silverTriples demoZips demoPlans)))[1]?)
    ∧ (sortRat (distinctRatesOf "11111" (silverTriples demoZips demoPlans)))[1]?
        = some 200 :=
  ⟨(claim2_second_smallest demoZips demoPlans "11111" (by decide) (by decide)).1, by decide⟩

/-- Claim C3: the final output relation has exactly one row per target row, in
the target list's original order; a zipcode with no computed entry appears
with the undefined marker instead of being dropped. -/
theorem claim3_order_preserved (zips : List ZipRow) (plans : List PlanRow)
    (targets : List TargetRow) :
    output_slcsp zips plans targets
        = targets.map (fun t =>
            ⟨t.zipcode, (slcspLookup t.zipcode (find_slcsp zips plans)).bind id⟩)
    ∧ (output_slcsp zips plans targets).map (fun r => r.zipcode)
        = targets.map (fun t => t.zipcode)
    ∧ ∀ t ∈ targets, slcspLookup t.zipcode (find_slcsp zips plans) = none →
        OutRow.mk t.zipcode none ∈ output_slcsp zips plans targets := by
  have h := output_slcsp_eq_map zips plans targets
  refine ⟨h, ?_, ?_⟩
  · rw [h, List.map_map]
    rfl
  · intro t ht hnone
    rw [h]
    refine List.mem_map.mpr ⟨t, ht, ?_⟩
    rw [hnone]
    rfl

/-- Witness for C3 at a concrete input: zipcode 44444 is absent from the demo
zips table yet appears in the output with the undefined marker. -/
theorem claim3_witness :
    OutRow.mk "44444" none ∈ output_slcsp demoZips demoPlans demoTargets :=
  (claim3_order_preserved demoZips demoPlans demoTargets).2.2
    ⟨"44444", some 7⟩ (by decide) (by decide)

/-- Claim C4: the core transform is total on well-typed inputs: the checked
variant, in which the rank-2 selection can fail, succeeds on every input and
returns exactly the relation of `find_slcsp`. -/
theorem claim4_total (zips : List ZipRow) (plans : List PlanRow) :
    find_slcspE zips plans = Except.ok (find_slcsp zips plans) := by
  have hall : ∀ z ∈ detZipsSorted (candidates zips plans),
      (selRate z (candidates zips plans)).isSome = true := by
    intro z hz
    obtain ⟨_, hh1, hh2⟩ := mem_detZipsSorted.mp hz
    exact selRate_isSome_of_det hh1 hh2
  unfold find_slcspE find_slcsp secondLowestRows
  rw [collectDet_ok hall]
  rfl

/-- Claim C5: the relation returned by `find_slcsp` carries at most one row
per zipcode, and the two classification conditions are mutually exclusive. -/
theorem claim5_unique_keys (zips : List ZipRow) (plans : List PlanRow) :
    ((find_slcsp zips plans).map fun r => r.zipcode).Nodup
    ∧ ∀ z : String,
        ¬((1 < areaCount z (candidates zips plans)
            ∨ rateCount z (candidates zips plans) = 1)
          ∧ (areaCount z (candidates zips plans) = 1
            ∧ 1 < rateCount z (candidates zips plans))) := by
  refine ⟨nodup_find_slcsp_keys zips plans, fun z h => ?_⟩
  obtain ⟨h1, h2, h3⟩ := h
  rcases h1 with h1 | h1 <;> omega

/-- Witness for C5 at a concrete input: the demo output relation has no
repeated zipcode. -/
theorem claim5_witness :
    ((find_slcsp demoZips demoPlans).map fun r => r.zipcode).Nodup :=
  (claim5_unique_keys demoZips demoPlans).1

/-- Claim C6: on the concrete scenario in which zipcode 11111 lies in the
single rating area NY 1 whose silver plans carry rates 200.00, 150.00 and a
duplicate 150.00, the selected rate is 200.00: the duplicate 150.00 is removed
before ranking and does not become the second-ranked candidate. -/
theorem claim6_dedup_before_ranking :
    slcspLookup "11111" (find_slcsp
        [⟨"11111", "NY", "36001", "Albany", 1⟩]
        [⟨"P1", "NY", "Silver", 200, 1⟩, ⟨"P2", "NY", "Silver", 150, 1⟩,
         ⟨"P3", "NY", "Silver", 150, 1⟩])
      = some (some 200) := by
  decide

/-- Claim C7: the incoming rate column of the target table has no influence on
the output: two target tables agreeing on the zipcode column produce identical
output relations. -/
theorem claim7_target_rates_ignored (zips : List ZipRow) (plans : List PlanRow)
    (t1 t2 : List TargetRow)
    (h : (t1.map fun t => t.zipcode) = t2.map fun t => t.zipcode) :
    output_slcsp zips plans t1 = output_slcsp zips plans t2 := by
  unfold output_slcsp
  rw [h]

/-- Witness for C7 at a concrete input: replacing every incoming rate of the
demo target list leaves the output unchanged. -/
theorem claim7_witness :
    output_slcsp demoZips demoPlans demoTargets
      = output_slcsp demoZips demoPlans
          [⟨"11111", some 42⟩, ⟨"22222", none⟩, ⟨"33333", some 3⟩, ⟨"44444", none⟩] :=
  claim7_target_rates_ignored demoZips demoPlans demoTargets
    [⟨"11111", some 42⟩, ⟨"22222", none⟩, ⟨"33333", some 3⟩, ⟨"44444", none⟩] (by decide)

/-- Claim C8: the full transform is deterministic: identical input tables
yield identical `find_slcsp` relations and identical output relations. -/
theorem claim8_deterministic (zips1 zips2 : List ZipRow) (plans1 plans2 : List PlanRow)
    (targets1 targets2 : List TargetRow)
    (hz : zips1 = zips2) (hp : plans1 = plans2) (ht : targets1 = targets2) :
    find_slcsp zips1 plans1 = find_slcsp zips2 plans2
    ∧ output_slcsp zips1 plans1 targets1 = output_slcsp zips2 plans2 targets2 := by
  subst hz
  subst hp
  subst ht
  exact ⟨rfl, rfl⟩

/-- Witness for C8 at a concrete input: two runs on the demo tables agree. -/
theorem claim8_witness :
    find_slcsp demoZips demoPlans = find_slcsp demoZips demoPlans
    ∧ output_slcsp demoZips demoPlans demoTargets
        = output_slcsp demoZips demoPlans demoTargets :=
  claim8_deterministic demoZips demoZips demoPlans demoPlans demoTargets demoTargets
    rfl rfl rfl

/-- Claim C9: a zipcode present in the zips table whose rating areas carry no
silver plans never appears in the `find_slcsp` relation, and surfaces in the
final output with the undefined marker, exactly like a zipcode missing from
the zips table. -/
theorem claim9_no_silver (zips : List ZipRow) (plans : List PlanRow)
    (targets : List TargetRow) (z : String)
    (_h1 : z ∈ zips.map fun r => r.zipcode)
    (h2 : ∀ zr ∈ zips, zr.zipcode = z → ∀ p ∈ plans,
        areaKey p.state p.rate_area = areaKey zr.state zr.rate_area →
        p.metal_level ≠ "Silver") :
    slcspLookup z (find_slcsp zips plans) = none
    ∧ ∀ row ∈ output_slcsp zips plans targets, row.zipcode = z → row.rate = none := by
  have hno : ¬∃ r ∈ candidates zips plans, r.zipcode = z := by
    rintro ⟨r, hr, hz⟩
    rw [mem_candidates, mem_silverTriples] at hr
    obtain ⟨zr, hzr, p, hp, hkey, hsil, heq⟩ := hr
    have hzz : zr.zipcode = z := by
      rw [← hz, heq]
    exact h2 zr hzr hzz p hp hkey hsil
  have hlook := slcspLookup_missing hno
  refine ⟨hlook, ?_⟩
  intro row hrow hz
  rw [output_slcsp_eq_map] at hrow
  obtain ⟨t, ht, rfl⟩ := List.mem_map.mp hrow
  show ((slcspLookup t.zipcode (find_slcsp zips plans)).bind id) = none
  have hzt : t.zipcode = z := hz
  rw [hzt, hlook]
  rfl

/-- Witness for C9 at a concrete input: zipcode 55555 lies in rating area TX 3
whose only plan is Gold, so its rate is undetermined. -/
theorem claim9_witness :
    slcspLookup "55555" (find_slcsp
        [⟨"55555", "TX", "48001", "Travis", 3⟩] [⟨"G1", "TX", "Gold", 100, 3⟩])
      = none :=
  (claim9_no_silver [⟨"55555", "TX", "48001", "Travis", 3⟩]
    [⟨"G1", "TX", "Gold", 100, 3⟩] [] "55555" (by decide) (by decide)).1

/-- Claim C10: joining the zips table against the full plans table and then
filtering to the Silver tier, as the code does, yields the same relation as
first restricting the plans to their Silver subset and then joining on the
rating-area key, as the spec describes. -/
theorem claim10_join_filter_comm (zips : List ZipRow) (plans : List PlanRow) :
    silverTriples zips plans = specSilverTriples zips plans :=
  silverTriples_eq_spec zips plans
